import Mathlib

/-!
Verification of the custom TikToken-style tokenizer in `examples/utils.py`:
the vocabulary loader `reload_mergeable_ranks`, the `CustomTikTokenizer`
class (`__init__`, `tokenize`, `detokenize`) and the streaming helper
`throttle_generator`.

Text is modelled at the byte level: a string is represented by its UTF-8
byte sequence (`List Nat`, each element < 256), since the tokenizer operates
on bytes throughout.  Python `assert` statements become `Option`-valued
functions that return `none` on failure; Python integers are `Int` where
subtraction can go negative (id arithmetic in `detokenize`) and `Nat`
elsewhere.
-/

set_option autoImplicit false

universe u

/-- MergeEntry: one record of the serialized vocabulary file, with fields
`rank`, `token_bytes` (the base64-decoded byte sequence) and `token_str`
(informational).  The loader's check `x.keys() == {"rank", "token_bytes",
"token_str"}` is structural here. -/
structure MergeEntry where
  rank : Nat
  token_bytes : List Nat
  token_str : String
deriving DecidableEq

/-- RankTable: the Python `Dict[bytes, int]` built by `reload_mergeable_ranks`,
as an association list in insertion order. -/
abbrev RankTable := List (List Nat × Nat)

/-- Python dict assignment `d[k] = v`: overwrite the value in place when the
key is already present, otherwise append the new pair at the end. -/
def dictInsert (d : RankTable) (k : List Nat) (v : Nat) : RankTable :=
  if d.any (fun p => p.1 == k) then
    d.map (fun p => if p.1 = k then (k, v) else p)
  else d ++ [(k, v)]

/-- Loop of `reload_mergeable_ranks` over `enumerate(vocab)`: at position `i`
assert `x["rank"] == i` and `i >= 256 or merge == bytes([i])`, then insert
`ranks[merge] = x["rank"]`.  A failed assert aborts with `none`. -/
def buildRanks : List MergeEntry → Nat → RankTable → Option RankTable
  | [], _, acc => some acc
  | x :: rest, i, acc =>
    if x.rank = i ∧ (256 ≤ i ∨ x.token_bytes = [i]) then
      buildRanks rest (i + 1) (dictInsert acc x.token_bytes x.rank)
    else none

/-- Python `set(vals) == set(range n)`, as two inclusions. -/
def rangeSetEq (n : Nat) (vals : List Nat) : Bool :=
  vals.all (fun v => decide (v ∈ List.range n)) &&
    (List.range n).all (fun v => decide (v ∈ vals))

/-- Truncation `vocab = vocab[:max_vocab]` applied when `max_vocab` is given. -/
def truncVocab (vocab : List MergeEntry) : Option Nat → List MergeEntry
  | some m => vocab.take m
  | none => vocab

/-- reload_mergeable_ranks: truncate the entry list to `max_vocab` entries when
given, run the assertion loop, then check `len(ranks) == len(vocab)` and
`set(ranks.values()) == set(range(len(ranks)))`. -/
def reload_mergeable_ranks (vocab : List MergeEntry) (max_vocab : Option Nat) :
    Option RankTable :=
  let vocab := truncVocab vocab max_vocab
  match buildRanks vocab 0 [] with
  | none => none
  | some ranks =>
    if ranks.length = vocab.length ∧ rangeSetEq ranks.length (ranks.map Prod.snd) = true then
      some ranks
    else none

/-- Lookup of a byte sequence in the rank table (`ranks[piece]`). -/
def lookupRank : RankTable → List Nat → Option Nat
  | [], _ => none
  | (k, v) :: rest, bs => if k = bs then some v else lookupRank rest bs

/-- Lookup of a rank in the inverted table (the tiktoken decoder built from
`mergeable_ranks`, equal to `id2token`). -/
def rankBytes : RankTable → Nat → Option (List Nat)
  | [], _ => none
  | (k, v) :: rest, r => if v = r then some k else rankBytes rest r

/-- Rank lookup for a Python integer rank: a negative rank has no entry. -/
def rankBytesInt (R : RankTable) (r : Int) : Option (List Nat) :=
  if r < 0 then none else rankBytes R r.toNat

/-- Option-valued traversal: succeeds when `f` succeeds on every element. -/
def traverseOpt {α β : Type u} (f : α → Option β) : List α → Option (List β)
  | [] => some []
  | a :: rest =>
    match f a, traverseOpt f rest with
    | some b, some bs => some (b :: bs)
    | _, _ => none

/-- Modelled from the spec: merging the adjacent parts at positions `i` and
`i + 1` of the working list of the byte-pair merge ("merge the adjacent
byte-sequence pair"); out-of-range positions leave the list unchanged. -/
def mergeAt : List (List Nat) → Nat → List (List Nat)
  | a :: b :: rest, 0 => (a ++ b) :: rest
  | a :: b :: rest, n + 1 => a :: mergeAt (b :: rest) n
  | parts, _ => parts

/-- Modelled from the spec: the candidate merges of the working list, i.e.
every position whose adjacent pair concatenates to a byte sequence present in
the rank table, with that sequence's rank. -/
def pairCandidates (R : RankTable) : List (List Nat) → Nat → List (Nat × Nat)
  | a :: b :: rest, i =>
    (match lookupRank R (a ++ b) with
      | some r => [(i, r)]
      | none => []) ++ pairCandidates R (b :: rest) (i + 1)
  | _, _ => []

/-- Leftmost candidate of minimal rank. -/
def pickMin : List (Nat × Nat) → Option (Nat × Nat)
  | [] => none
  | x :: rest => some (rest.foldl (fun best y => if y.2 < best.2 then y else best) x)

/-- Modelled from the spec: "the adjacent byte-sequence pair with the lowest
combined rank", or `none` when "no further merge exists in the table". -/
def bestMerge (R : RankTable) (parts : List (List Nat)) : Option (Nat × Nat) :=
  pickMin (pairCandidates R parts 0)

/-- Modelled from the spec: the byte-pair merge loop, "repeatedly merge the
adjacent byte-sequence pair with the lowest combined rank until no further
merge exists in the table".  Each merge shortens the list, so the initial
length is enough fuel. -/
def bpeLoop (R : RankTable) : Nat → List (List Nat) → List (List Nat)
  | 0, parts => parts
  | fuel + 1, parts =>
    match bestMerge R parts with
    | none => parts
    | some (i, _) => bpeLoop R fuel (mergeAt parts i)

/-- Modelled from the spec: byte-pair merging of one pre-tokenized segment,
starting from its single-byte parts. -/
def bytePairMerge (R : RankTable) (bs : List Nat) : List (List Nat) :=
  bpeLoop R bs.length (bs.map (fun b => [b]))

/-- Modelled from the spec (and the tiktoken fast path): a segment present in
the table as a whole becomes that single rank, otherwise the byte-pair merge
runs and each resulting part is looked up; a missing part is fatal. -/
def encodePiece (R : RankTable) (bs : List Nat) : Option (List Nat) :=
  match lookupRank R bs with
  | some r => some [r]
  | none => traverseOpt (lookupRank R) (bytePairMerge R bs)

/-- Modelled from the spec: `_model.encode` — the missing tiktoken engine.
Segment the text by the pre-tokenization pattern (`split`, kept abstract: the
frozen Unicode regex is outside the repository; its relevant property is that
the segments concatenate back to the input), byte-pair encode each segment and
concatenate the rank sequences in order. -/
def modelEncode (R : RankTable) (split : List Nat → List (List Nat))
    (t : List Nat) : Option (List Nat) :=
  (traverseOpt (encodePiece R) (split t)).map List.flatten

/-- Modelled from the spec: `_model.decode` — look up each rank's byte
sequence and concatenate; a rank with no entry (in particular any negative
rank) is fatal. -/
def modelDecode (R : RankTable) (rs : List Int) : Option (List Nat) :=
  (traverseOpt (rankBytesInt R) rs).map List.flatten

/-- SPECIAL_TOKENS constant. -/
def SPECIAL_TOKENS : List String := ["<unk>", "<s>", "</s>"]

/-- SPECIAL_TOKEN_TEMPLATE: the synthesized placeholder label for slot `i`. -/
def SPECIAL_TOKEN_TEMPLATE (i : Nat) : String :=
  "<SPECIAL_" ++ toString i ++ ">"

/-- CustomTikTokenizer: the fields of a successfully constructed tokenizer. -/
structure CustomTikTokenizer where
  token2id : RankTable
  num_special_tokens : Nat
  vocab_size : Nat
  special_tokens : List String
  unk_id : Nat
  bos_id : Nat
  eos_id : Nat
  shifted_id2token : List (Nat × (String ⊕ List Nat))
deriving DecidableEq

/-- CustomTikTokenizer.__init__: validate the special-token constraints,
resolve the unk/bos/eos ids, pad with synthesized placeholder labels, load the
rank table truncated to `inner_vocab_size = vocab_size - num_special_tokens`,
check `set(range(inner_vocab_size)) == set(id2token.keys())`, and build the
shifted decode table.  Any failed assert yields `none`. -/
def mkTokenizer (vocab : List MergeEntry) (vocab_size : Nat)
    (num_special_tokens : Nat) (special? : Option (List String)) :
    Option CustomTikTokenizer :=
  let special_tokens := special?.getD SPECIAL_TOKENS
  if special_tokens.Nodup ∧
      special_tokens.length ≤ num_special_tokens ∧
      num_special_tokens < vocab_size ∧
      (∀ s ∈ SPECIAL_TOKENS, s ∈ special_tokens) then
    let unk_id := special_tokens.indexOf "<unk>"
    let bos_id := special_tokens.indexOf "<s>"
    let eos_id := special_tokens.indexOf "</s>"
    let special_filler :=
      ((List.range num_special_tokens).drop special_tokens.length).map
        SPECIAL_TOKEN_TEMPLATE
    let all_special := special_tokens ++ special_filler
    if all_special.Nodup ∧ all_special.length = num_special_tokens then
      let inner_vocab_size := vocab_size - num_special_tokens
      match reload_mergeable_ranks vocab (some inner_vocab_size) with
      | none => none
      | some token2id =>
        let id2token := token2id.map (fun p => (p.2, p.1))
        if rangeSetEq inner_vocab_size (id2token.map Prod.fst) = true then
          some ⟨token2id, num_special_tokens, vocab_size, all_special,
            unk_id, bos_id, eos_id,
            all_special.enum.map (fun p => (p.1, Sum.inl p.2)) ++
              token2id.map (fun p => (p.2 + num_special_tokens, Sum.inr p.1))⟩
        else none
    else none
  else none

/-- CustomTikTokenizer.tokenize: encode with the underlying model, shift every
rank up by `num_special_tokens`, then optionally prepend the BOS id and append
the EOS id. -/
def tokenize (tok : CustomTikTokenizer) (split : List Nat → List (List Nat))
    (s : List Nat) (bos : Bool) (eos : Bool) : Option (List Int) :=
  (modelEncode tok.token2id split s).map (fun ts =>
    let ts2 : List Int := ts.map (fun r : Nat => (r : Int) + (tok.num_special_tokens : Int))
    let ts3 := if bos then ((tok.bos_id : Int) :: ts2) else ts2
    if eos then (ts3 ++ [(tok.eos_id : Int)]) else ts3)

/-- CustomTikTokenizer.detokenize: drop every id equal to the BOS or the EOS
id, subtract `num_special_tokens` from each remaining id (Python integer
subtraction, so the result can be negative), and decode the ranks. -/
def detokenize (tok : CustomTikTokenizer) (ids : List Int) : Option (List Nat) :=
  modelDecode tok.token2id
    ((ids.filter (fun t => !(t == (tok.bos_id : Int) || t == (tok.eos_id : Int)))).map
      (fun t => t - (tok.num_special_tokens : Int)))

/-- Lookup in the shifted decode table (`shifted_id2token[i]`, a Python dict
with distinct keys, so first-match association lookup agrees with it). -/
def lookupId : List (Nat × (String ⊕ List Nat)) → Nat → Option (String ⊕ List Nat)
  | [], _ => none
  | (k, v) :: rest, i => if k = i then some v else lookupId rest i

/-- Loop of `throttle_generator`: at index `i` yield the element when
`i % stream_interval == 0`; after the last element, yield it again when its
index is not a multiple of `stream_interval`. -/
def throttleAux {α : Type u} (k : Nat) : Nat → List α → List α
  | i, [a] => (if i % k = 0 then [a] else []) ++ (if i % k = 0 then [] else [a])
  | i, a :: rest => (if i % k = 0 then [a] else []) ++ throttleAux k (i + 1) rest
  | _, [] => []

/-- throttle_generator: on an empty generator the loop variable is never bound
and the trailing `if i % stream_interval` raises `NameError`, modelled as
`none`; otherwise the yielded elements in order. -/
def throttle_generator {α : Type u} (xs : List α) (k : Nat) : Option (List α) :=
  match xs with
  | [] => none
  | _ :: _ => some (throttleAux k 0 xs)

/-- Canonical test vocabulary: single bytes below 256, two-byte sequences
above (distinct for all indices below 65536). -/
def canonBytes (i : Nat) : List Nat :=
  if i < 256 then [i] else [i / 256, i % 256]

/-- Canonical merge entry at position `i`. -/
def canonEntry (i : Nat) : MergeEntry := ⟨i, canonBytes i, ""⟩

/-- Canonical well-formed vocabulary file with `n` entries. -/
def canonVocab (n : Nat) : List MergeEntry := (List.range n).map canonEntry

/-- The rank table the loader builds from `canonVocab n`. -/
def canonTable (n : Nat) : RankTable := (List.range n).map (fun j => (canonBytes j, j))

/-! ### Dictionary and loader lemmas -/

theorem any_key_eq (d : RankTable) (k : List Nat) :
    d.any (fun p => p.1 == k) = true ↔ k ∈ d.map Prod.fst := by
  constructor
  · intro hc
    obtain ⟨p, hp, hpk⟩ := List.any_eq_true.mp hc
    exact List.mem_map.mpr ⟨p, hp, by simpa using hpk⟩
  · intro hk
    obtain ⟨p, hp, hpk⟩ := List.mem_map.mp hk
    exact List.any_eq_true.mpr ⟨p, hp, by simpa using hpk⟩

theorem dictInsert_of_not_mem (d : RankTable) (k : List Nat) (v : Nat)
    (h : k ∉ d.map Prod.fst) : dictInsert d k v = d ++ [(k, v)] := by
  unfold dictInsert
  rw [if_neg]
  intro hc
  exact h ((any_key_eq d k).mp hc)

theorem keys_dictInsert (d : RankTable) (k : List Nat) (v : Nat) :
    (dictInsert d k v).map Prod.fst =
      if k ∈ d.map Prod.fst then d.map Prod.fst else d.map Prod.fst ++ [k] := by
  by_cases h : k ∈ d.map Prod.fst
  · rw [if_pos h]
    unfold dictInsert
    rw [if_pos ((any_key_eq d k).mpr h), List.map_map]
    apply List.map_congr_left
    intro p _
    by_cases hp : p.1 = k
    · simp [hp]
    · simp [hp]
  · rw [if_neg h, dictInsert_of_not_mem d k v h]
    simp

theorem length_dictInsert (d : RankTable) (k : List Nat) (v : Nat) :
    (dictInsert d k v).length =
      if k ∈ d.map Prod.fst then d.length else d.length + 1 := by
  have h := congrArg List.length (keys_dictInsert d k v)
  by_cases hm : k ∈ d.map Prod.fst
  · rw [if_pos hm] at h ⊢
    simpa using h
  · rw [if_neg hm] at h ⊢
    simpa using h

theorem buildRanks_length_le (vocab : List MergeEntry) :
    ∀ (i : Nat) (acc d : RankTable), buildRanks vocab i acc = some d →
      d.length ≤ acc.length + vocab.length := by
  induction vocab with
  | nil =>
    intro i acc d h
    simp only [buildRanks, Option.some.injEq] at h
    subst h; simp
  | cons x rest ih =>
    intro i acc d h
    simp only [buildRanks] at h
    split at h
    · have hle := ih (i + 1) _ d h
      have hlen := length_dictInsert acc x.token_bytes x.rank
      by_cases hm : x.token_bytes ∈ acc.map Prod.fst
      · rw [if_pos hm] at hlen
        simp only [List.length_cons]
        omega
      · rw [if_neg hm] at hlen
        simp only [List.length_cons]
        omega
    · exact absurd h (by simp)

theorem buildRanks_full (vocab : List MergeEntry) :
    ∀ (i : Nat) (acc d : RankTable), buildRanks vocab i acc = some d →
      d.length = acc.length + vocab.length →
      d = acc ++ vocab.map (fun x => (x.token_bytes, x.rank)) ∧
      (∀ x ∈ vocab, x.token_bytes ∉ acc.map Prod.fst) ∧
      (vocab.map MergeEntry.token_bytes).Nodup := by
  induction vocab with
  | nil =>
    intro i acc d h _
    simp only [buildRanks, Option.some.injEq] at h
    subst h
    refine ⟨by simp, by simp, by simp⟩
  | cons x rest ih =>
    intro i acc d h hlen
    simp only [buildRanks] at h
    split at h
    · by_cases hm : x.token_bytes ∈ acc.map Prod.fst
      · exfalso
        have hle := buildRanks_length_le rest (i + 1) _ d h
        have hlen2 := length_dictInsert acc x.token_bytes x.rank
        rw [if_pos hm] at hlen2
        simp only [List.length_cons] at hlen
        omega
      · rw [dictInsert_of_not_mem acc x.token_bytes x.rank hm] at h
        have hlen2 : d.length = (acc ++ [(x.token_bytes, x.rank)]).length + rest.length := by
          simp only [List.length_append, List.length_singleton, List.length_cons,
            List.length_nil] at hlen ⊢
          omega
        obtain ⟨hd, hfresh, hnd⟩ := ih (i + 1) _ d h hlen2
        refine ⟨?_, ?_, ?_⟩
        · rw [hd]; simp
        · intro y hy
          rcases List.mem_cons.mp hy with rfl | hy2
          · exact hm
          · have := hfresh y hy2
            simp only [List.map_append, List.mem_append] at this
            intro hc
            exact this (Or.inl hc)
        · simp only [List.map_cons, List.nodup_cons]
          refine ⟨?_, hnd⟩
          intro hc
          rcases List.mem_map.mp hc with ⟨y, hy, hyx⟩
          have := hfresh y hy
          simp only [List.map_append, List.mem_append, List.map_cons] at this
          exact this (Or.inr (by simp [hyx]))
    · exact absurd h (by simp)

theorem buildRanks_entries (vocab : List MergeEntry) :
    ∀ (i : Nat) (acc d : RankTable), buildRanks vocab i acc = some d →
      ∀ (j : Nat) (hj : j < vocab.length),
        (vocab.get ⟨j, hj⟩).rank = i + j ∧
        (i + j < 256 → (vocab.get ⟨j, hj⟩).token_bytes = [i + j]) := by
  induction vocab with
  | nil => intro _ _ _ _ j hj; exact absurd hj (by simp)
  | cons x rest ih =>
    intro i acc d h j hj
    simp only [buildRanks] at h
    split at h
    next hc =>
      match j with
      | 0 =>
        refine ⟨by simpa using hc.1, fun h256 => ?_⟩
        have := hc.2.resolve_left (by omega)
        simpa using this
      | j' + 1 =>
        have hj' : j' < rest.length := by simpa using hj
        have := ih (i + 1) _ d h j' hj'
        have harith : i + 1 + j' = i + (j' + 1) := by omega
        rw [harith] at this
        exact ⟨this.1, this.2⟩
    next => exact absurd h (by simp)

theorem lookupRank_of_mem (R : RankTable) (hk : (R.map Prod.fst).Nodup)
    {k : List Nat} {v : Nat} (hm : (k, v) ∈ R) : lookupRank R k = some v := by
  induction R with
  | nil => exact absurd hm (by simp)
  | cons p rest ih =>
    obtain ⟨k0, v0⟩ := p
    simp only [List.map_cons, List.nodup_cons] at hk
    rcases List.mem_cons.mp hm with heq | hm2
    · obtain ⟨rfl, rfl⟩ := Prod.mk.injEq .. ▸ heq
      simp [lookupRank]
    · have hne : k0 ≠ k := by
        intro hc
        subst hc
        exact hk.1 (List.mem_map.mpr ⟨(k0, v), hm2, rfl⟩)
      simp only [lookupRank, if_neg hne]
      exact ih hk.2 hm2

theorem mem_of_lookupRank (R : RankTable) {k : List Nat} {v : Nat}
    (h : lookupRank R k = some v) : (k, v) ∈ R := by
  induction R with
  | nil => simp [lookupRank] at h
  | cons p rest ih =>
    obtain ⟨k0, v0⟩ := p
    by_cases hk : k0 = k
    · subst hk
      simp only [lookupRank, eq_self_iff_true, if_true, Option.some.injEq] at h
      subst h
      exact List.mem_cons_self ..
    · simp only [lookupRank, if_neg hk] at h
      exact List.mem_cons_of_mem _ (ih h)

theorem rankBytes_of_mem (R : RankTable) (hv : (R.map Prod.snd).Nodup)
    {k : List Nat} {v : Nat} (hm : (k, v) ∈ R) : rankBytes R v = some k := by
  induction R with
  | nil => exact absurd hm (by simp)
  | cons p rest ih =>
    obtain ⟨k0, v0⟩ := p
    simp only [List.map_cons, List.nodup_cons] at hv
    rcases List.mem_cons.mp hm with heq | hm2
    · obtain ⟨rfl, rfl⟩ := Prod.mk.injEq .. ▸ heq
      simp [rankBytes]
    · have hne : v0 ≠ v := by
        intro hc
        subst hc
        exact hv.1 (List.mem_map.mpr ⟨(k, v0), hm2, rfl⟩)
      simp only [rankBytes, if_neg hne]
      exact ih hv.2 hm2

theorem reload_spec (vocab : List MergeEntry) (mv : Option Nat) (R : RankTable)
    (h : reload_mergeable_ranks vocab mv = some R) :
    R = (truncVocab vocab mv).map (fun x => (x.token_bytes, x.rank)) ∧
    R.length = (truncVocab vocab mv).length ∧
    (R.map Prod.fst).Nodup ∧
    R.map Prod.snd = List.range R.length ∧
    (∀ (j : Nat) (hj : j < (truncVocab vocab mv).length),
      ((truncVocab vocab mv).get ⟨j, hj⟩).rank = j ∧
      (j < 256 → ((truncVocab vocab mv).get ⟨j, hj⟩).token_bytes = [j])) := by
  simp only [reload_mergeable_ranks] at h
  cases hb : buildRanks (truncVocab vocab mv) 0 [] with
  | none => rw [hb] at h; exact absurd h (by simp)
  | some ranks =>
    rw [hb] at h
    simp only at h
    split at h
    case isTrue hcond =>
      simp only [Option.some.injEq] at h
      subst h
      obtain ⟨hfull, _, hnd⟩ := buildRanks_full _ 0 [] ranks hb (by simpa using hcond.1)
      simp only [List.nil_append] at hfull
      have hentries := buildRanks_entries _ 0 [] ranks hb
      have hkeys : ranks.map Prod.fst = (truncVocab vocab mv).map MergeEntry.token_bytes := by
        rw [hfull, List.map_map]; rfl
      have hlen : ranks.length = (truncVocab vocab mv).length := hcond.1
      refine ⟨hfull, hlen, ?_, ?_, ?_⟩
      · rw [hkeys]; exact hnd
      · have hvals : ranks.map Prod.snd = (truncVocab vocab mv).map MergeEntry.rank := by
          rw [hfull, List.map_map]; rfl
        rw [hvals]
        apply List.ext_get
        · simp [hlen]
        · intro n h1 h2
          have hget := (hentries n (by simpa using h1)).1
          simp only [List.get_eq_getElem, List.getElem_map, List.getElem_range]
          simpa using hget
      · intro j hj
        have := hentries j hj
        simpa using this
    case isFalse => exact absurd h (by simp)

theorem reload_none_of_bad_rank (vocab : List MergeEntry) (mv : Option Nat)
    (j : Nat) (hj : j < (truncVocab vocab mv).length)
    (hbad : ((truncVocab vocab mv).get ⟨j, hj⟩).rank ≠ j) :
    reload_mergeable_ranks vocab mv = none := by
  cases h : reload_mergeable_ranks vocab mv with
  | none => rfl
  | some R => exact absurd ((reload_spec vocab mv R h).2.2.2.2 j hj).1 hbad

theorem reload_none_of_bad_byte (vocab : List MergeEntry) (mv : Option Nat)
    (j : Nat) (hj : j < (truncVocab vocab mv).length) (h256 : j < 256)
    (hbad : ((truncVocab vocab mv).get ⟨j, hj⟩).token_bytes ≠ [j]) :
    reload_mergeable_ranks vocab mv = none := by
  cases h : reload_mergeable_ranks vocab mv with
  | none => rfl
  | some R => exact absurd (((reload_spec vocab mv R h).2.2.2.2 j hj).2 h256) hbad

theorem reload_none_of_dup (vocab : List MergeEntry) (mv : Option Nat)
    (hdup : ¬ ((truncVocab vocab mv).map MergeEntry.token_bytes).Nodup) :
    reload_mergeable_ranks vocab mv = none := by
  cases h : reload_mergeable_ranks vocab mv with
  | none => rfl
  | some R =>
    obtain ⟨hfull, _, hnd, _, _⟩ := reload_spec vocab mv R h
    refine absurd ?_ hdup
    have : R.map Prod.fst = (truncVocab vocab mv).map MergeEntry.token_bytes := by
      rw [hfull, List.map_map]; rfl
    rw [← this]; exact hnd

theorem mkTokenizer_none_of_reload_none (vocab : List MergeEntry) (vs ns : Nat)
    (sp : Option (List String))
    (h : reload_mergeable_ranks vocab (some (vs - ns)) = none) :
    mkTokenizer vocab vs ns sp = none := by
  simp only [mkTokenizer, h]
  split
  · split
    · rfl
    · rfl
  · rfl

/-! ### Canonical vocabulary lemmas -/

theorem canonBytes_inj {i j : Nat} (h : canonBytes i = canonBytes j) : i = j := by
  unfold canonBytes at h
  by_cases h1 : i < 256 <;> by_cases h2 : j < 256
  · rw [if_pos h1, if_pos h2] at h; simpa using h
  · rw [if_pos h1, if_neg h2] at h; simp at h
  · rw [if_neg h1, if_pos h2] at h; simp at h
  · rw [if_neg h1, if_neg h2] at h
    simp only [List.cons.injEq] at h
    omega

theorem canonTable_keys (n : Nat) :
    (canonTable n).map Prod.fst = (List.range n).map canonBytes := by
  unfold canonTable
  rw [List.map_map]
  rfl

theorem canonTable_snd (n : Nat) : (canonTable n).map Prod.snd = List.range n := by
  unfold canonTable
  rw [List.map_map]
  exact List.map_id _

theorem canonTable_length (n : Nat) : (canonTable n).length = n := by
  simp [canonTable]

theorem canonTable_succ (n : Nat) :
    canonTable (n + 1) = canonTable n ++ [(canonBytes n, n)] := by
  unfold canonTable
  rw [List.range_succ, List.map_append]
  rfl

theorem buildRanks_canon (n : Nat) : ∀ (i : Nat),
    buildRanks ((List.range' i n).map canonEntry) i (canonTable i) =
      some (canonTable (i + n)) := by
  induction n with
  | zero => intro i; simp [buildRanks]
  | succ m ih =>
    intro i
    rw [List.range'_succ, List.map_cons]
    have hcond : (canonEntry i).rank = i ∧ (256 ≤ i ∨ (canonEntry i).token_bytes = [i]) := by
      refine ⟨rfl, ?_⟩
      by_cases h256 : i < 256
      · exact Or.inr (by simp [canonEntry, canonBytes, if_pos h256])
      · exact Or.inl (by omega)
    have hfresh : canonBytes i ∉ (canonTable i).map Prod.fst := by
      rw [canonTable_keys]
      intro hc
      obtain ⟨j, hj, hji⟩ := List.mem_map.mp hc
      have hj2 := List.mem_range.mp hj
      have := canonBytes_inj hji
      omega
    have hins : dictInsert (canonTable i) (canonEntry i).token_bytes (canonEntry i).rank =
        canonTable (i + 1) := by
      show dictInsert (canonTable i) (canonBytes i) i = canonTable (i + 1)
      rw [dictInsert_of_not_mem _ _ _ hfresh, canonTable_succ]
    simp only [buildRanks, if_pos hcond, hins]
    have harith : i + 1 + m = i + (m + 1) := by omega
    rw [← harith]
    exact ih (i + 1)

theorem rangeSetEq_range (n : Nat) : rangeSetEq n (List.range n) = true := by
  unfold rangeSetEq
  simp

theorem rangeSetEq_range_lt {m n : Nat} (h : m < n) :
    rangeSetEq n (List.range m) = false := by
  cases hb : rangeSetEq n (List.range m) with
  | false => rfl
  | true =>
    exfalso
    unfold rangeSetEq at hb
    rw [Bool.and_eq_true] at hb
    have h2 := List.all_eq_true.mp hb.2 m (by simp [h])
    simp at h2

theorem reload_canon (n m : Nat) :
    reload_mergeable_ranks (canonVocab n) (some m) = some (canonTable (min m n)) := by
  have htv : truncVocab (canonVocab n) (some m) = canonVocab (min m n) := by
    simp only [truncVocab, canonVocab]
    rw [← List.map_take, List.take_range]
  have hbuild : buildRanks (canonVocab (min m n)) 0 [] = some (canonTable (min m n)) := by
    have h0 : canonVocab (min m n) = (List.range' 0 (min m n)).map canonEntry := by
      unfold canonVocab
      rw [List.range_eq_range']
    have h1 : (canonTable 0 : RankTable) = [] := by simp [canonTable]
    have := buildRanks_canon (min m n) 0
    rw [h0, ← h1]
    simpa using this
  simp only [reload_mergeable_ranks, htv, hbuild]
  rw [if_pos]
  refine ⟨?_, ?_⟩
  · simp [canonTable_length, canonVocab]
  · rw [canonTable_snd, canonTable_length]
    exact rangeSetEq_range (min m n)

/-- The tokenizer produced by a successful default construction over the
canonical vocabulary with `num_special_tokens = 3`. -/
def canonTok (n : Nat) : CustomTikTokenizer :=
  ⟨canonTable n, 3, n + 3, SPECIAL_TOKENS, 0, 1, 2,
    SPECIAL_TOKENS.enum.map (fun p => (p.1, Sum.inl p.2)) ++
      (canonTable n).map (fun p => (p.2 + 3, Sum.inr p.1))⟩

theorem canonTable_swap_keys (n : Nat) :
    ((canonTable n).map (fun p => (p.2, p.1))).map Prod.fst = List.range n := by
  rw [List.map_map]
  exact canonTable_snd n

theorem mkTokenizer_canon (n : Nat) (hn : 0 < n) :
    mkTokenizer (canonVocab n) (n + 3) 3 none = some (canonTok n) := by
  have h3 : (3 : Nat) < n + 3 := by omega
  have hinner : n + 3 - 3 = n := by omega
  simp only [mkTokenizer, Option.getD_none, hinner]
  rw [if_pos ⟨by decide, by decide, h3, by decide⟩]
  rw [if_pos (by decide)]
  rw [reload_canon n n, Nat.min_self]
  simp only [canonTable_swap_keys, rangeSetEq_range, if_pos]
  have hunk : List.indexOf "<unk>" SPECIAL_TOKENS = 0 := by decide
  have hbos : List.indexOf "<s>" SPECIAL_TOKENS = 1 := by decide
  have heos : List.indexOf "</s>" SPECIAL_TOKENS = 2 := by decide
  simp only [hunk, hbos, heos, List.append_nil]
  rfl

theorem mkTokenizer_canon_short (n vs : Nat) (hlt : n < vs - 3) (h3 : 3 < vs) :
    mkTokenizer (canonVocab n) vs 3 none = none := by
  simp only [mkTokenizer, Option.getD_none]
  rw [if_pos ⟨by decide, by decide, h3, by decide⟩]
  rw [if_pos (by decide)]
  rw [reload_canon n (vs - 3), Nat.min_eq_right (Nat.le_of_lt hlt)]
  simp only [canonTable_swap_keys, rangeSetEq_range_lt hlt]
  rw [if_neg]
  simp

theorem reload_lookup_byte (vocab : List MergeEntry) (mv : Option Nat) (R : RankTable)
    (h : reload_mergeable_ranks vocab mv = some R) (i : Nat) (h256 : i < 256)
    (hlen : i < R.length) : lookupRank R [i] = some i := by
  obtain ⟨hfull, hlenR, hnd, _, hentries⟩ := reload_spec vocab mv R h
  have hi2 : i < (truncVocab vocab mv).length := by omega
  have hent := hentries i hi2
  have hmem : ([i], i) ∈ R := by
    rw [hfull]
    refine List.mem_map.mpr ⟨(truncVocab vocab mv).get ⟨i, hi2⟩, List.get_mem _ _ _, ?_⟩
    rw [hent.2 h256, hent.1]
  exact lookupRank_of_mem R hnd hmem

/-! ### Claims about the loader and construction -/

/-- C2: tokenizer construction succeeds exactly when the vocabulary file
yields at least `inner_vocab_size = vocab_size - num_special_tokens` valid
entries: with `vocab_size = 1000` and `num_special_tokens = 3`, a 997-entry
file constructs successfully, while a 900-entry file fails construction and
yields no tokenizer instance. -/
theorem claim_C2_size_consistency :
    (mkTokenizer (canonVocab 997) 1000 3 none).isSome = true ∧
    mkTokenizer (canonVocab 900) 1000 3 none = none := by
  constructor
  · have h := mkTokenizer_canon 997 (by norm_num)
    norm_num at h
    rw [h]
    rfl
  · exact mkTokenizer_canon_short 900 1000 (by norm_num) (by norm_num)

/-- C3: every rank table produced by the loader maps each single byte `[i]`
with `i < 256` (and `i` below the table size) to rank `i`; an input whose
entry at a position `i < 256` decodes to anything other than the single byte
`[i]` makes loading fail rather than produce a table. -/
theorem claim_C3_rank_seeding (vocab : List MergeEntry) (mv : Option Nat) :
    (∀ R, reload_mergeable_ranks vocab mv = some R →
      ∀ i, i < 256 → i < R.length → lookupRank R [i] = some i) ∧
    (∀ (j : Nat) (hj : j < (truncVocab vocab mv).length), j < 256 →
      ((truncVocab vocab mv).get ⟨j, hj⟩).token_bytes ≠ [j] →
      reload_mergeable_ranks vocab mv = none) := by
  constructor
  · intro R h i h256 hlen
    exact reload_lookup_byte vocab mv R h i h256 hlen
  · intro j hj h256 hbad
    exact reload_none_of_bad_byte vocab mv j hj h256 hbad

theorem claim_C3_witness :
    lookupRank (canonTable 5) [3] = some 3 ∧
    reload_mergeable_ranks [⟨0, [0], ""⟩, ⟨1, [7], ""⟩] none = none :=
  ⟨(claim_C3_rank_seeding (canonVocab 5) (some 5)).1 (canonTable 5)
      (by rw [reload_canon 5 5]; rfl) 3 (by decide) (by decide),
   (claim_C3_rank_seeding [⟨0, [0], ""⟩, ⟨1, [7], ""⟩] none).2 1 (by decide)
      (by decide) (by decide)⟩

/-- C4: every rank table the loader returns is bijective: its size equals the
number of entries processed, its keys are pairwise distinct, and its ranks are
exactly `0, ..., N-1`; inputs with duplicate byte sequences or with a rank
missing from its position make loading fail instead. -/
theorem claim_C4_bijectivity (vocab : List MergeEntry) (mv : Option Nat) :
    (∀ R, reload_mergeable_ranks vocab mv = some R →
      R.length = (truncVocab vocab mv).length ∧
      (R.map Prod.fst).Nodup ∧
      R.map Prod.snd = List.range R.length) ∧
    (¬ ((truncVocab vocab mv).map MergeEntry.token_bytes).Nodup →
      reload_mergeable_ranks vocab mv = none) ∧
    (∀ (j : Nat) (hj : j < (truncVocab vocab mv).length),
      ((truncVocab vocab mv).get ⟨j, hj⟩).rank ≠ j →
      reload_mergeable_ranks vocab mv = none) := by
  refine ⟨?_, reload_none_of_dup vocab mv, reload_none_of_bad_rank vocab mv⟩
  intro R h
  obtain ⟨_, hlen, hnd, hvals, _⟩ := reload_spec vocab mv R h
  exact ⟨hlen, hnd, hvals⟩

theorem claim_C4_witness :
    ((canonTable 4).length = (truncVocab (canonVocab 4) (some 4)).length ∧
      ((canonTable 4).map Prod.fst).Nodup ∧
      (canonTable 4).map Prod.snd = List.range (canonTable 4).length) ∧
    reload_mergeable_ranks [⟨0, [0], ""⟩, ⟨1, [0], ""⟩] none = none :=
  ⟨(claim_C4_bijectivity (canonVocab 4) (some 4)).1 (canonTable 4)
      (by rw [reload_canon 4 4]; rfl),
   (claim_C4_bijectivity [⟨0, [0], ""⟩, ⟨1, [0], ""⟩] none).2.1 (by decide)⟩

/-- C5: a vocabulary whose truncation contains an entry at position `j` whose
rank field differs from `j` makes the loader fail, and no partially built
table or tokenizer instance is exposed. -/
theorem claim_C5_rank_mismatch (vocab : List MergeEntry) (vs ns : Nat)
    (sp : Option (List String)) (j : Nat)
    (hj : j < (truncVocab vocab (some (vs - ns))).length)
    (hbad : ((truncVocab vocab (some (vs - ns))).get ⟨j, hj⟩).rank ≠ j) :
    reload_mergeable_ranks vocab (some (vs - ns)) = none ∧
    mkTokenizer vocab vs ns sp = none := by
  have h := reload_none_of_bad_rank vocab (some (vs - ns)) j hj hbad
  exact ⟨h, mkTokenizer_none_of_reload_none vocab vs ns sp h⟩

theorem claim_C5_witness :
    reload_mergeable_ranks [⟨0, [0], ""⟩, ⟨2, [1], ""⟩] (some (5 - 3)) = none ∧
    mkTokenizer [⟨0, [0], ""⟩, ⟨2, [1], ""⟩] 5 3 none = none :=
  claim_C5_rank_mismatch [⟨0, [0], ""⟩, ⟨2, [1], ""⟩] 5 3 none 1 (by decide) (by decide)

/-! ### Byte-pair merge lemmas -/

theorem mergeAt_flatten (parts : List (List Nat)) :
    ∀ (i : Nat), (mergeAt parts i).flatten = parts.flatten := by
  induction parts with
  | nil => intro i; cases i <;> rfl
  | cons a rest ih =>
    intro i
    cases rest with
    | nil => cases i <;> rfl
    | cons b rest2 =>
      cases i with
      | zero => simp [mergeAt, List.append_assoc]
      | succ n =>
        show (a :: mergeAt (b :: rest2) n).flatten = (a :: b :: rest2).flatten
        simp [ih n]

theorem mem_mergeAt (parts : List (List Nat)) :
    ∀ (i : Nat) (p : List Nat), p ∈ mergeAt parts i →
      p ∈ parts ∨ ∃ a b, parts[i]? = some a ∧ parts[i + 1]? = some b ∧ p = a ++ b := by
  induction parts with
  | nil => intro i p hp; cases i <;> exact Or.inl hp
  | cons a rest ih =>
    intro i p hp
    cases rest with
    | nil =>
      cases i with
      | zero => exact Or.inl hp
      | succ n => exact Or.inl hp
    | cons b rest2 =>
      cases i with
      | zero =>
        rcases List.mem_cons.mp hp with rfl | hmem
        · exact Or.inr ⟨a, b, by simp, by simp, rfl⟩
        · exact Or.inl (List.mem_cons_of_mem _ (List.mem_cons_of_mem _ hmem))
      | succ n =>
        have hp2 : p ∈ a :: mergeAt (b :: rest2) n := hp
        rcases List.mem_cons.mp hp2 with rfl | hmem
        · exact Or.inl (List.mem_cons_self ..)
        · rcases ih n p hmem with hin | ⟨x, y, hx, hy, hxy⟩
          · exact Or.inl (List.mem_cons_of_mem _ hin)
          · exact Or.inr ⟨x, y, by simpa using hx, by simpa using hy, hxy⟩

theorem pickMin_mem {l : List (Nat × Nat)} {x : Nat × Nat}
    (h : pickMin l = some x) : x ∈ l := by
  cases l with
  | nil => simp [pickMin] at h
  | cons a rest =>
    simp only [pickMin, Option.some.injEq] at h
    subst h
    have : ∀ (t : List (Nat × Nat)) (init : Nat × Nat),
        t.foldl (fun best y => if y.2 < best.2 then y else best) init ∈ init :: t := by
      intro t
      induction t with
      | nil => intro init; simp
      | cons y t2 ih =>
        intro init
        simp only [List.foldl_cons]
        rcases List.mem_cons.mp (ih (if y.2 < init.2 then y else init)) with heq | hmem
        · rw [heq]
          by_cases hc : y.2 < init.2
          · rw [if_pos hc]; exact List.mem_cons_of_mem _ (List.mem_cons_self ..)
          · rw [if_neg hc]; exact List.mem_cons_self ..
        · exact List.mem_cons_of_mem _ (List.mem_cons_of_mem _ hmem)
    exact this rest a

theorem pairCandidates_spec (R : RankTable) :
    ∀ (parts : List (List Nat)) (j i r : Nat),
      (i, r) ∈ pairCandidates R parts j →
      ∃ k a b, i = j + k ∧ parts[k]? = some a ∧ parts[k + 1]? = some b ∧
        lookupRank R (a ++ b) = some r := by
  intro parts
  induction parts with
  | nil => intro j i r h; simp [pairCandidates] at h
  | cons a rest ih =>
    intro j i r h
    cases rest with
    | nil => simp [pairCandidates] at h
    | cons b rest2 =>
      simp only [pairCandidates] at h
      rcases List.mem_append.mp h with hhead | htail
      · have hl : lookupRank R (a ++ b) = some r ∧ i = j := by
          cases hlk : lookupRank R (a ++ b) with
          | none => rw [hlk] at hhead; simp at hhead
          | some r2 =>
            rw [hlk] at hhead
            simp only [List.mem_singleton, Prod.mk.injEq] at hhead
            exact ⟨by rw [hhead.2], hhead.1⟩
        exact ⟨0, a, b, by omega, by simp, by simp, hl.1⟩
      · obtain ⟨k, x, y, hik, hx, hy, hr⟩ := ih (j + 1) i r htail
        exact ⟨k + 1, x, y, by omega, by simpa using hx, by simpa using hy, hr⟩

theorem bpeLoop_invariant (R : RankTable) :
    ∀ (fuel : Nat) (parts : List (List Nat)),
      (∀ p ∈ parts, (lookupRank R p).isSome) →
      (∀ p ∈ bpeLoop R fuel parts, (lookupRank R p).isSome) := by
  intro fuel
  induction fuel with
  | zero => intro parts h; exact h
  | succ m ih =>
    intro parts h
    simp only [bpeLoop]
    cases hbm : bestMerge R parts with
    | none => exact h
    | some ir =>
      obtain ⟨i, r⟩ := ir
      apply ih
      intro p hp
      rcases mem_mergeAt parts i p hp with hin | ⟨a, b, ha, hb, rfl⟩
      · exact h p hin
      · obtain ⟨k, a2, b2, hik, ha2, hb2, hr⟩ :=
          pairCandidates_spec R parts 0 i r (pickMin_mem hbm)
        have hk : i = k := by omega
        subst hk
        rw [ha] at ha2
        rw [hb] at hb2
        obtain rfl : a = a2 := by simpa using ha2
        obtain rfl : b = b2 := by simpa using hb2
        simp [hr]

theorem bpeLoop_flatten (R : RankTable) :
    ∀ (fuel : Nat) (parts : List (List Nat)),
      (bpeLoop R fuel parts).flatten = parts.flatten := by
  intro fuel
  induction fuel with
  | zero => intro parts; rfl
  | succ m ih =>
    intro parts
    simp only [bpeLoop]
    cases hbm : bestMerge R parts with
    | none => rfl
    | some ir =>
      obtain ⟨i, r⟩ := ir
      rw [ih (mergeAt parts i), mergeAt_flatten]

/-! ### Traversal lemmas -/

theorem traverseOpt_append {α β : Type u} (f : α → Option β) (l1 l2 : List α)
    {a1 a2 : List β} (h1 : traverseOpt f l1 = some a1)
    (h2 : traverseOpt f l2 = some a2) :
    traverseOpt f (l1 ++ l2) = some (a1 ++ a2) := by
  induction l1 generalizing a1 with
  | nil =>
    simp only [traverseOpt, Option.some.injEq] at h1
    subst h1
    simpa using h2
  | cons x l ih =>
    simp only [traverseOpt] at h1
    cases hfx : f x with
    | none => rw [hfx] at h1; simp at h1
    | some b =>
      rw [hfx] at h1
      cases ht : traverseOpt f l with
      | none => rw [ht] at h1; simp at h1
      | some bs =>
        rw [ht] at h1
        simp only [Option.some.injEq] at h1
        subst h1
        rw [List.cons_append, List.cons_append]
        simp only [traverseOpt, hfx, ih ht]

theorem traverseOpt_none_of_mem {α β : Type u} (f : α → Option β) {l : List α}
    {a : α} (ha : a ∈ l) (hfa : f a = none) : traverseOpt f l = none := by
  induction l with
  | nil => simp at ha
  | cons x rest ih =>
    rcases List.mem_cons.mp ha with rfl | hmem
    · simp [traverseOpt, hfa]
    · simp only [traverseOpt, ih hmem]
      cases f x <;> rfl

theorem traverseOpt_mem {α β : Type u} (f : α → Option β) :
    ∀ {l : List α} {out : List β}, traverseOpt f l = some out →
      ∀ b ∈ out, ∃ a ∈ l, f a = some b := by
  intro l
  induction l with
  | nil =>
    intro out h b hb
    simp only [traverseOpt, Option.some.injEq] at h
    subst h
    simp at hb
  | cons x rest ih =>
    intro out h b hb
    simp only [traverseOpt] at h
    cases hfx : f x with
    | none => rw [hfx] at h; simp at h
    | some c =>
      rw [hfx] at h
      cases ht : traverseOpt f rest with
      | none => rw [ht] at h; simp at h
      | some cs =>
        rw [ht] at h
        simp only [Option.some.injEq] at h
        subst h
        rcases List.mem_cons.mp hb with rfl | hmem
        · exact ⟨x, List.mem_cons_self .., hfx⟩
        · obtain ⟨a, ha, hfa⟩ := ih ht b hmem
          exact ⟨a, List.mem_cons_of_mem _ ha, hfa⟩

theorem traverseOpt_map {α β γ : Type u} (f : β → Option γ) (g : α → β)
    (l : List α) : traverseOpt f (l.map g) = traverseOpt (fun a => f (g a)) l := by
  induction l with
  | nil => rfl
  | cons x rest ih => simp only [List.map_cons, traverseOpt, ih]

theorem traverseOpt_congr {α β : Type u} {f g : α → Option β} {l : List α}
    (h : ∀ a ∈ l, f a = g a) : traverseOpt f l = traverseOpt g l := by
  induction l with
  | nil => rfl
  | cons x rest ih =>
    simp only [traverseOpt, h x (List.mem_cons_self ..),
      ih (fun a ha => h a (List.mem_cons_of_mem _ ha))]

/-! ### Round-trip lemmas -/

theorem traverse_lookup_back (R : RankTable) (hvals : (R.map Prod.snd).Nodup) :
    ∀ (parts : List (List Nat)), (∀ p ∈ parts, (lookupRank R p).isSome) →
      ∃ rs, traverseOpt (lookupRank R) parts = some rs ∧
        traverseOpt (rankBytes R) rs = some parts := by
  intro parts
  induction parts with
  | nil => exact fun _ => ⟨[], rfl, rfl⟩
  | cons p rest ih =>
    intro h
    obtain ⟨rs, hrs, hback⟩ := ih (fun q hq => h q (List.mem_cons_of_mem _ hq))
    have hp := h p (List.mem_cons_self ..)
    cases hlp : lookupRank R p with
    | none => rw [hlp] at hp; simp at hp
    | some r =>
      have hb : rankBytes R r = some p :=
        rankBytes_of_mem R hvals (mem_of_lookupRank R hlp)
      refine ⟨r :: rs, ?_, ?_⟩
      · simp [traverseOpt, hlp, hrs]
      · simp [traverseOpt, hb, hback]

theorem flatten_singletons (bs : List Nat) :
    (bs.map (fun b => [b])).flatten = bs := by
  induction bs with
  | nil => rfl
  | cons b rest ih => simp [ih]

theorem encodePiece_roundtrip (R : RankTable) (hvals : (R.map Prod.snd).Nodup)
    (bs : List Nat) (hseed : ∀ b ∈ bs, (lookupRank R [b]).isSome) :
    ∃ rs parts, encodePiece R bs = some rs ∧
      traverseOpt (rankBytes R) rs = some parts ∧ parts.flatten = bs := by
  unfold encodePiece
  cases hl : lookupRank R bs with
  | some r =>
    refine ⟨[r], [bs], rfl, ?_, by simp⟩
    have hb := rankBytes_of_mem R hvals (mem_of_lookupRank R hl)
    simp [traverseOpt, hb]
  | none =>
    have hinv : ∀ p ∈ bytePairMerge R bs, (lookupRank R p).isSome := by
      apply bpeLoop_invariant
      intro p hp
      obtain ⟨b, hb, rfl⟩ := List.mem_map.mp hp
      exact hseed b hb
    obtain ⟨rs, hrs, hback⟩ := traverse_lookup_back R hvals _ hinv
    refine ⟨rs, bytePairMerge R bs, hrs, hback, ?_⟩
    unfold bytePairMerge
    rw [bpeLoop_flatten]
    exact flatten_singletons bs

theorem segments_roundtrip (R : RankTable) (hvals : (R.map Prod.snd).Nodup) :
    ∀ (segs : List (List Nat)),
      (∀ s ∈ segs, ∀ b ∈ s, (lookupRank R [b]).isSome) →
      ∃ rss, traverseOpt (encodePiece R) segs = some rss ∧
        ∃ ps, traverseOpt (rankBytes R) rss.flatten = some ps ∧
          ps.flatten = segs.flatten := by
  intro segs
  induction segs with
  | nil => exact fun _ => ⟨[], rfl, [], rfl, rfl⟩
  | cons s rest ih =>
    intro h
    obtain ⟨rs, parts, henc, hback, hflat⟩ :=
      encodePiece_roundtrip R hvals s (h s (List.mem_cons_self ..))
    obtain ⟨rss, hrss, ps, hps, hpflat⟩ := ih (fun q hq => h q (List.mem_cons_of_mem _ hq))
    refine ⟨rs :: rss, ?_, parts ++ ps, ?_, ?_⟩
    · simp [traverseOpt, henc, hrss]
    · rw [show (rs :: rss).flatten = rs ++ rss.flatten from rfl]
      exact traverseOpt_append _ _ _ hback hps
    · simp [hflat, hpflat]

theorem rangeSetEq_range_eq {n m : Nat} (h : rangeSetEq n (List.range m) = true) :
    m = n := by
  unfold rangeSetEq at h
  rw [Bool.and_eq_true] at h
  have h1 : ∀ v, v < m → v < n := by
    intro v hv
    have := List.all_eq_true.mp h.1 v (by simpa using hv)
    simpa using this
  have h2 : ∀ v, v < n → v < m := by
    intro v hv
    have := List.all_eq_true.mp h.2 v (by simpa using hv)
    simpa using this
  have hm : m ≤ n := by
    cases m with
    | zero => omega
    | succ k => have := h1 k (by omega); omega
  have hn : n ≤ m := by
    cases n with
    | zero => omega
    | succ k => have := h2 k (by omega); omega
  omega

theorem mkTokenizer_inv (vocab : List MergeEntry) (vs ns : Nat)
    (sp : Option (List String)) (tok : CustomTikTokenizer)
    (h : mkTokenizer vocab vs ns sp = some tok) :
    tok.num_special_tokens = ns ∧
    tok.vocab_size = vs ∧
    reload_mergeable_ranks vocab (some (vs - ns)) = some tok.token2id ∧
    tok.token2id.length = vs - ns ∧
    tok.bos_id < ns ∧ tok.eos_id < ns ∧ tok.unk_id < ns ∧
    tok.special_tokens.length = ns ∧
    tok.shifted_id2token =
      tok.special_tokens.enum.map (fun p => (p.1, Sum.inl p.2)) ++
        tok.token2id.map (fun p => (p.2 + ns, Sum.inr p.1)) := by
  simp only [mkTokenizer] at h
  split at h
  case isTrue hc1 =>
    split at h
    case isTrue hc2 =>
      cases hrel : reload_mergeable_ranks vocab (some (vs - ns)) with
      | none => rw [hrel] at h; simp at h
      | some R =>
        rw [hrel] at h
        simp only at h
        split at h
        case isTrue hc3 =>
          simp only [Option.some.injEq] at h
          subst h
          obtain ⟨_, _, _, hvals, _⟩ := reload_spec _ _ _ hrel
          have hkeys : (R.map (fun p => (p.2, p.1))).map Prod.fst = R.map Prod.snd := by
            rw [List.map_map]; rfl
          rw [hkeys, hvals] at hc3
          have hRlen : R.length = vs - ns := rangeSetEq_range_eq hc3
          have hmem_s : ∀ a ∈ SPECIAL_TOKENS, a ∈ sp.getD SPECIAL_TOKENS := hc1.2.2.2
          have hlen_s : (sp.getD SPECIAL_TOKENS).length ≤ ns := hc1.2.1
          have hidx : ∀ a ∈ SPECIAL_TOKENS, List.indexOf a (sp.getD SPECIAL_TOKENS) < ns := by
            intro a ha
            have := List.indexOf_lt_length.mpr (hmem_s a ha)
            omega
          refine ⟨rfl, rfl, ?_, ?_, ?_, ?_, ?_, ?_, ?_⟩
          · rfl
          · exact hRlen
          · exact hidx "<s>" (by decide)
          · exact hidx "</s>" (by decide)
          · exact hidx "<unk>" (by decide)
          · exact hc2.2
          · rfl
        case isFalse => simp at h
    case isFalse => simp at h
  case isFalse => simp at h

theorem rankBytesInt_natCast (R : RankTable) (r : Nat) :
    rankBytesInt R ((r : Int)) = rankBytes R r := by
  unfold rankBytesInt
  rw [if_neg (by omega)]
  simp

theorem tokenize_detokenize (vocab : List MergeEntry) (vs ns : Nat)
    (sp : Option (List String)) (tok : CustomTikTokenizer)
    (split : List Nat → List (List Nat)) (t : List Nat)
    (htok : mkTokenizer vocab vs ns sp = some tok)
    (hvs : 256 + ns ≤ vs)
    (hsplit : (split t).flatten = t)
    (hbytes : ∀ b ∈ t, b < 256) :
    ∃ ids, tokenize tok split t false false = some ids ∧
      detokenize tok ids = some t := by
  obtain ⟨hns, hvsz, hrel, hlen, hbos, heos, hunk, hsp, hsh⟩ :=
    mkTokenizer_inv vocab vs ns sp tok htok
  obtain ⟨hfull, hlenR, hnd, hvals, hentries⟩ := reload_spec _ _ _ hrel
  have hvnd : (tok.token2id.map Prod.snd).Nodup := by
    rw [hvals]; exact List.nodup_range _
  have hseed : ∀ s ∈ split t, ∀ b ∈ s, (lookupRank tok.token2id [b]).isSome := by
    intro s hs b hb
    have hbt : b ∈ t := by
      rw [← hsplit]
      exact List.mem_flatten.mpr ⟨s, hs, hb⟩
    have h256 : b < 256 := hbytes b hbt
    have hl : lookupRank tok.token2id [b] = some b :=
      reload_lookup_byte vocab _ _ hrel b h256 (by omega)
    simp [hl]
  obtain ⟨rss, hrss, ps, hps, hpflat⟩ := segments_roundtrip _ hvnd (split t) hseed
  have htk : tokenize tok split t false false =
      some (rss.flatten.map (fun r : Nat => (r : Int) + (ns : Int))) := by
    unfold tokenize modelEncode
    rw [hrss]
    simp [hns]
  refine ⟨_, htk, ?_⟩
  unfold detokenize
  rw [hns]
  have hfil : (rss.flatten.map (fun r : Nat => (r : Int) + (ns : Int))).filter
      (fun x => !(x == (tok.bos_id : Int) || x == (tok.eos_id : Int))) =
      rss.flatten.map (fun r : Nat => (r : Int) + (ns : Int)) := by
    apply List.filter_eq_self.mpr
    intro x hx
    obtain ⟨r, hr, rfl⟩ := List.mem_map.mp hx
    have hr0 := Int.natCast_nonneg r
    have h1 : (r : Int) + (ns : Int) ≠ (tok.bos_id : Int) := by
      intro hc; omega
    have h2 : (r : Int) + (ns : Int) ≠ (tok.eos_id : Int) := by
      intro hc; omega
    simp [h1, h2]
  rw [hfil, List.map_map]
  have hm2 : ((fun x => x - (ns : Int)) ∘ (fun r : Nat => (r : Int) + (ns : Int))) =
      fun r : Nat => (r : Int) := by
    funext r
    simp [Function.comp]
  rw [hm2]
  unfold modelDecode
  rw [traverseOpt_map]
  have hcg : traverseOpt (fun r : Nat => rankBytesInt tok.token2id ((r : Int))) rss.flatten =
      traverseOpt (rankBytes tok.token2id) rss.flatten :=
    traverseOpt_congr (fun a _ => rankBytesInt_natCast _ a)
  rw [hcg, hps]
  show some ps.flatten = some t
  rw [hpflat, hsplit]

/-! ### Claims about encode and decode -/

/-- C1: for every byte-level text whose segments (under any pre-tokenization
that concatenates back to the text, as the frozen pattern does) consist of
bytes below 256, detokenize after tokenize with no BOS/EOS flags reproduces
the text exactly, for any tokenizer whose construction succeeded with an
ordinary vocabulary covering the byte alphabet. -/
theorem claim_C1_roundtrip (vocab : List MergeEntry) (vs ns : Nat)
    (sp : Option (List String)) (tok : CustomTikTokenizer)
    (split : List Nat → List (List Nat)) (t : List Nat)
    (htok : mkTokenizer vocab vs ns sp = some tok)
    (hvs : 256 + ns ≤ vs)
    (hsplit : (split t).flatten = t)
    (hbytes : ∀ b ∈ t, b < 256) :
    (tokenize tok split t false false).bind (detokenize tok) = some t := by
  obtain ⟨ids, h1, h2⟩ :=
    tokenize_detokenize vocab vs ns sp tok split t htok hvs hsplit hbytes
  rw [h1]
  simpa using h2

theorem claim_C1_witness :
    mkTokenizer (canonVocab 257) 260 3 none = some (canonTok 257) ∧
    (tokenize (canonTok 257) (fun bs => [bs]) [104, 105] false false).bind
      (detokenize (canonTok 257)) = some [104, 105] := by
  have h : mkTokenizer (canonVocab 257) 260 3 none = some (canonTok 257) := by
    have h2 := mkTokenizer_canon 257 (by norm_num)
    norm_num at h2
    exact h2
  exact ⟨h, claim_C1_roundtrip (canonVocab 257) 260 3 none (canonTok 257)
    (fun bs => [bs]) [104, 105] h (by norm_num) (by simp) (by decide)⟩

/-- C6: tokenize with both flags set produces exactly the BOS id, then the
plain encoding, then the EOS id; stripping both endpoints and detokenizing
reproduces the text. -/
theorem claim_C6_bos_eos_framing (vocab : List MergeEntry) (vs ns : Nat)
    (sp : Option (List String)) (tok : CustomTikTokenizer)
    (split : List Nat → List (List Nat)) (t : List Nat)
    (htok : mkTokenizer vocab vs ns sp = some tok)
    (hvs : 256 + ns ≤ vs)
    (hsplit : (split t).flatten = t)
    (hbytes : ∀ b ∈ t, b < 256) :
    ∃ ids, tokenize tok split t false false = some ids ∧
      tokenize tok split t true true =
        some ((tok.bos_id : Int) :: ids ++ [(tok.eos_id : Int)]) ∧
      detokenize tok ids = some t := by
  obtain ⟨ids, h1, h2⟩ :=
    tokenize_detokenize vocab vs ns sp tok split t htok hvs hsplit hbytes
  refine ⟨ids, h1, ?_, h2⟩
  have hflags : tokenize tok split t true true =
      (tokenize tok split t false false).map
        (fun l => (tok.bos_id : Int) :: l ++ [(tok.eos_id : Int)]) := by
    unfold tokenize
    cases modelEncode tok.token2id split t <;> rfl
  rw [hflags, h1]
  rfl

theorem claim_C6_witness :
    ∃ ids, tokenize (canonTok 257) (fun bs => [bs]) [104] false false = some ids ∧
      tokenize (canonTok 257) (fun bs => [bs]) [104] true true =
        some (((canonTok 257).bos_id : Int) :: ids ++ [((canonTok 257).eos_id : Int)]) ∧
      detokenize (canonTok 257) ids = some [104] := by
  have h : mkTokenizer (canonVocab 257) 260 3 none = some (canonTok 257) := by
    have h2 := mkTokenizer_canon 257 (by norm_num)
    norm_num at h2
    exact h2
  exact claim_C6_bos_eos_framing (canonVocab 257) 260 3 none (canonTok 257)
    (fun bs => [bs]) [104] h (by norm_num) (by simp) (by decide)

/-- C7: detokenize removes every occurrence of the BOS id and every occurrence
of the EOS id wherever they appear in the id list, removes no other id, and
subtracts num_special_tokens from each remaining id before the byte lookup. -/
theorem claim_C7_detokenize_filtering (tok : CustomTikTokenizer) :
    (∀ a b, detokenize tok (a ++ (tok.bos_id : Int) :: b) = detokenize tok (a ++ b)) ∧
    (∀ a b, detokenize tok (a ++ (tok.eos_id : Int) :: b) = detokenize tok (a ++ b)) ∧
    (∀ ids, (∀ id ∈ ids, id ≠ (tok.bos_id : Int) ∧ id ≠ (tok.eos_id : Int)) →
      detokenize tok ids =
        modelDecode tok.token2id
          (ids.map (fun x => x - (tok.num_special_tokens : Int)))) := by
  have hdrop : ∀ (x : Int), (x = (tok.bos_id : Int) ∨ x = (tok.eos_id : Int)) →
      ∀ a b, detokenize tok (a ++ x :: b) = detokenize tok (a ++ b) := by
    intro x hx a b
    unfold detokenize
    rw [List.filter_append, List.filter_append, List.filter_cons]
    rcases hx with rfl | rfl <;> simp
  refine ⟨fun a b => hdrop _ (Or.inl rfl) a b, fun a b => hdrop _ (Or.inr rfl) a b, ?_⟩
  intro ids h
  unfold detokenize
  have hfil : ids.filter
      (fun x => !(x == (tok.bos_id : Int) || x == (tok.eos_id : Int))) = ids := by
    apply List.filter_eq_self.mpr
    intro x hx
    simp [(h x hx).1, (h x hx).2]
  rw [hfil]

theorem claim_C7_witness :
    detokenize (canonTok 1) ([(4 : Int)] ++ ((canonTok 1).bos_id : Int) :: [(5 : Int)]) =
      detokenize (canonTok 1) ([(4 : Int)] ++ [(5 : Int)]) ∧
    detokenize (canonTok 1) ([] ++ ((canonTok 1).eos_id : Int) :: []) =
      detokenize (canonTok 1) ([] ++ []) ∧
    detokenize (canonTok 1) [(4 : Int)] =
      modelDecode (canonTok 1).token2id
        ([(4 : Int)].map (fun x => x - ((canonTok 1).num_special_tokens : Int))) :=
  ⟨(claim_C7_detokenize_filtering (canonTok 1)).1 [(4 : Int)] [(5 : Int)],
   (claim_C7_detokenize_filtering (canonTok 1)).2.1 [] [],
   (claim_C7_detokenize_filtering (canonTok 1)).2.2 [(4 : Int)] (by decide)⟩

theorem encodePiece_ranks (R : RankTable) {bs rs : List Nat}
    (h : encodePiece R bs = some rs) : ∀ r ∈ rs, r ∈ R.map Prod.snd := by
  unfold encodePiece at h
  cases hl : lookupRank R bs with
  | some r0 =>
    rw [hl] at h
    simp only [Option.some.injEq] at h
    subst h
    intro r hr
    simp only [List.mem_singleton] at hr
    subst hr
    exact List.mem_map.mpr ⟨_, mem_of_lookupRank R hl, rfl⟩
  | none =>
    rw [hl] at h
    intro r hr
    obtain ⟨p, _, hfp⟩ := traverseOpt_mem _ h r hr
    exact List.mem_map.mpr ⟨_, mem_of_lookupRank R hfp, rfl⟩

theorem modelEncode_ranks (R : RankTable) (split : List Nat → List (List Nat))
    (t : List Nat) {rs : List Nat} (h : modelEncode R split t = some rs) :
    ∀ r ∈ rs, r ∈ R.map Prod.snd := by
  unfold modelEncode at h
  cases ht : traverseOpt (encodePiece R) (split t) with
  | none => rw [ht] at h; simp at h
  | some rss =>
    rw [ht] at h
    simp only [Option.map_some', Option.some.injEq] at h
    subst h
    intro r hr
    obtain ⟨l, hl, hrl⟩ := List.mem_flatten.mp hr
    obtain ⟨s, _, hes⟩ := traverseOpt_mem _ ht l hl
    exact encodePiece_ranks R hes r hrl

theorem lookupId_enum_inl (l : List String) (rest : List (Nat × (String ⊕ List Nat))) :
    ∀ (j i : Nat) (hi : i < l.length),
      lookupId ((l.enumFrom j).map (fun p => (p.1, Sum.inl p.2)) ++ rest) (j + i) =
        some (Sum.inl (l.get ⟨i, hi⟩)) := by
  induction l with
  | nil => intro j i hi; simp at hi
  | cons s l2 ih =>
    intro j i hi
    cases i with
    | zero =>
      show lookupId ((j, Sum.inl s) :: ((l2.enumFrom (j + 1)).map
        (fun p => (p.1, Sum.inl p.2)) ++ rest)) (j + 0) = some (Sum.inl s)
      simp [lookupId]
    | succ i2 =>
      have hi2 : i2 < l2.length := by simpa using hi
      have hih := ih (j + 1) i2 hi2
      show lookupId ((j, Sum.inl s) :: ((l2.enumFrom (j + 1)).map
        (fun p => (p.1, Sum.inl p.2)) ++ rest)) (j + (i2 + 1)) = _
      unfold lookupId
      rw [if_neg (by omega)]
      rw [show j + (i2 + 1) = (j + 1) + i2 from by omega]
      exact hih

/-- C8: every id produced by plain tokenize lies in the shifted ordinary range
`[num_special_tokens, vocab_size)`, and every id below `num_special_tokens`
has a defined special-token label in the shifted decode table. -/
theorem claim_C8_id_partition (vocab : List MergeEntry) (vs ns : Nat)
    (sp : Option (List String)) (tok : CustomTikTokenizer)
    (htok : mkTokenizer vocab vs ns sp = some tok) :
    (∀ (split : List Nat → List (List Nat)) (t : List Nat) (ids : List Int),
      tokenize tok split t false false = some ids →
      ∀ id ∈ ids, (ns : Int) ≤ id ∧ id < (vs : Int)) ∧
    (∀ i, i < ns → ∃ (hi2 : i < tok.special_tokens.length),
      lookupId tok.shifted_id2token i =
        some (Sum.inl (tok.special_tokens.get ⟨i, hi2⟩))) := by
  obtain ⟨hns, hvsz, hrel, hlen, hbos, heos, hunk, hsp, hsh⟩ :=
    mkTokenizer_inv vocab vs ns sp tok htok
  obtain ⟨_, _, _, hvals, _⟩ := reload_spec _ _ _ hrel
  constructor
  · intro split t ids hids id hid
    unfold tokenize at hids
    cases he : modelEncode tok.token2id split t with
    | none => rw [he] at hids; simp at hids
    | some m =>
      rw [he] at hids
      simp only [Option.map_some', Option.some.injEq] at hids
      subst hids
      simp only [if_neg (by simp : ¬ (false = true))] at hid
      obtain ⟨r, hr, rfl⟩ := List.mem_map.mp hid
      have hr2 := modelEncode_ranks _ split t he r hr
      rw [hvals] at hr2
      have hrlt : r < vs - ns := by
        have := List.mem_range.mp hr2
        omega
      constructor
      · rw [hns]; omega
      · rw [hns]
        have hnsvs : ns < vs := by omega
        omega
  · intro i hi
    have hi2 : i < tok.special_tokens.length := by omega
    refine ⟨hi2, ?_⟩
    rw [hsh]
    have := lookupId_enum_inl tok.special_tokens
      (tok.token2id.map (fun p => (p.2 + ns, Sum.inr p.1))) 0 i hi2
    simpa using this

theorem claim_C8_witness :
    (((3 : Nat) : Int) ≤ (3 : Int) ∧ (3 : Int) < ((4 : Nat) : Int)) ∧
    ∃ (hi2 : 0 < (canonTok 1).special_tokens.length),
      lookupId (canonTok 1).shifted_id2token 0 =
        some (Sum.inl ((canonTok 1).special_tokens.get ⟨0, hi2⟩)) := by
  have h : mkTokenizer (canonVocab 1) 4 3 none = some (canonTok 1) := by
    have h2 := mkTokenizer_canon 1 (by norm_num)
    norm_num at h2
    exact h2
  constructor
  · exact (claim_C8_id_partition (canonVocab 1) 4 3 none (canonTok 1) h).1
      (fun bs => [bs]) [0] [(3 : Int)] (by decide) (3 : Int) (by decide)
  · exact (claim_C8_id_partition (canonVocab 1) 4 3 none (canonTok 1) h).2 0 (by decide)

/-- C9 counterexample: for the default construction the UNK id is 0, distinct
from BOS (1) and EOS (2), yet detokenize on `[0]` fails (the id is kept by the
filter, shifted to the negative rank `-3`, and the rank lookup has no entry)
instead of succeeding with no textual content. -/
theorem claim_C9_counterexample :
    mkTokenizer (canonVocab 1) 4 3 none = some (canonTok 1) ∧
    (canonTok 1).unk_id = 0 ∧ (canonTok 1).bos_id = 1 ∧ (canonTok 1).eos_id = 2 ∧
    detokenize (canonTok 1) [((canonTok 1).unk_id : Int)] = none := by
  refine ⟨?_, rfl, rfl, rfl, by decide⟩
  have h2 := mkTokenizer_canon 1 (by norm_num)
  norm_num at h2
  exact h2

/-- C9 amended: passing detokenize an id of a special token other than BOS and
EOS is not silently ignored: the id survives the BOS/EOS filter, its shifted
rank is negative and has no table entry, so the call fails rather than
succeeding with that id contributing no textual content. -/
theorem claim_C9_special_decode (tok : CustomTikTokenizer) (i : Nat)
    (hi : i < tok.num_special_tokens)
    (hbos : (i : Int) ≠ (tok.bos_id : Int)) (heos : (i : Int) ≠ (tok.eos_id : Int))
    (pre post : List Int) :
    detokenize tok (pre ++ (i : Int) :: post) = none := by
  unfold detokenize modelDecode
  have hmem : (i : Int) ∈ (pre ++ (i : Int) :: post).filter
      (fun x => !(x == (tok.bos_id : Int) || x == (tok.eos_id : Int))) := by
    apply List.mem_filter.mpr
    refine ⟨by simp, by simp [hbos, heos]⟩
  have hmem2 : ((i : Int) - (tok.num_special_tokens : Int)) ∈
      ((pre ++ (i : Int) :: post).filter
        (fun x => !(x == (tok.bos_id : Int) || x == (tok.eos_id : Int)))).map
        (fun x => x - (tok.num_special_tokens : Int)) :=
    List.mem_map.mpr ⟨_, hmem, rfl⟩
  have hnone : rankBytesInt tok.token2id
      ((i : Int) - (tok.num_special_tokens : Int)) = none := by
    unfold rankBytesInt
    rw [if_pos (by omega)]
  rw [traverseOpt_none_of_mem _ hmem2 hnone]
  rfl

theorem claim_C9_witness :
    detokenize (canonTok 1) ([(5 : Int)] ++ ((0 : Nat) : Int) :: []) = none :=
  claim_C9_special_decode (canonTok 1) 0 (by decide) (by decide) (by decide)
    [(5 : Int)] []

/-! ### Throttle generator lemmas -/

theorem enumFrom_concat {α : Type u} (l : List α) (b : α) :
    ∀ (j : Nat), (l ++ [b]).enumFrom j = l.enumFrom j ++ [(j + l.length, b)] := by
  induction l with
  | nil => intro j; simp
  | cons x rest ih =>
    intro j
    show (j, x) :: (rest ++ [b]).enumFrom (j + 1) = _
    rw [ih (j + 1)]
    simp only [List.enumFrom, List.cons_append, List.length_cons]
    have : j + 1 + rest.length = j + (rest.length + 1) := by omega
    rw [this]

theorem throttleAux_spec {α : Type u} (k : Nat) :
    ∀ (xs : List α) (i : Nat) (h : xs ≠ []),
      throttleAux k i xs =
        ((xs.enumFrom i).filter (fun p => decide (p.1 % k = 0))).map Prod.snd ++
          (if (i + xs.length - 1) % k = 0 then [] else [xs.getLast h]) := by
  intro xs
  induction xs with
  | nil => intro i h; exact absurd rfl h
  | cons a rest ih =>
    intro i h
    cases rest with
    | nil =>
      show (if i % k = 0 then [a] else []) ++ (if i % k = 0 then [] else [a]) = _
      have hl : i + [a].length - 1 = i := by simp
      rw [hl]
      by_cases hik : i % k = 0 <;> simp [hik, List.enumFrom]
    | cons b rest2 =>
      show (if i % k = 0 then [a] else []) ++ throttleAux k (i + 1) (b :: rest2) = _
      rw [ih (i + 1) (by simp)]
      have hcond : i + 1 + (b :: rest2).length - 1 = i + (a :: b :: rest2).length - 1 := by
        simp only [List.length_cons]
        omega
      rw [hcond]
      by_cases hik : i % k = 0 <;>
        simp [hik, List.enumFrom, List.filter_cons]

/-- C10: for a non-empty input and stream_interval >= 1, throttle_generator
yields exactly the elements whose index is a multiple of stream_interval, in
order, followed by the last element when its index is not such a multiple; in
particular the first and the last element are always yielded (head and last of
the output match head and last of the input, the last yielded exactly once by
the characterization).  On the empty input the loop variable is never bound
and the function fails, yielding nothing. -/
theorem claim_C10_throttle {α : Type u} (xs : List α) (k : Nat) (_hk : 1 ≤ k) :
    throttle_generator ([] : List α) k = none ∧
    ∀ (h : xs ≠ []),
      throttle_generator xs k =
        some (((xs.enum.filter (fun p => decide (p.1 % k = 0))).map Prod.snd) ++
          (if (xs.length - 1) % k = 0 then [] else [xs.getLast h])) ∧
      ∃ ys, throttle_generator xs k = some ys ∧
        ys.head? = xs.head? ∧ ys.getLast? = xs.getLast? := by
  refine ⟨rfl, ?_⟩
  intro h
  have hchar : throttle_generator xs k =
      some (((xs.enum.filter (fun p => decide (p.1 % k = 0))).map Prod.snd) ++
        (if (xs.length - 1) % k = 0 then [] else [xs.getLast h])) := by
    cases xs with
    | nil => exact absurd rfl h
    | cons a rest =>
      show some (throttleAux k 0 (a :: rest)) = _
      rw [throttleAux_spec k (a :: rest) 0 h]
      have h0 : (0 : Nat) + (a :: rest).length - 1 = (a :: rest).length - 1 := by omega
      rw [h0]
      rfl
  refine ⟨hchar, _, hchar, ?_, ?_⟩
  · cases xs with
    | nil => exact absurd rfl h
    | cons a rest =>
      have he : (a :: rest).enum = (0, a) :: rest.enumFrom 1 := rfl
      rw [he, List.filter_cons]
      simp
  · by_cases hif : (xs.length - 1) % k = 0
    · rw [if_pos hif, List.append_nil]
      rcases List.eq_nil_or_concat xs with rfl | ⟨L, b, rfl⟩
      · exact absurd rfl h
      · simp only [List.concat_eq_append] at hif ⊢
        have hif2 : L.length % k = 0 := by
          simpa using hif
        have he : (L ++ [b]).enum = L.enumFrom 0 ++ [(0 + L.length, b)] :=
          enumFrom_concat L b 0
        rw [he, List.filter_append, List.filter_cons]
        simp [hif2, List.getLast?_concat]
    · rw [if_neg hif, List.getLast?_concat]
      exact (List.getLast?_eq_getLast_of_ne_nil h).symm

theorem claim_C10_witness :
    throttle_generator ([10, 20, 30] : List Nat) 2 = some [10, 30] ∧
    throttle_generator ([] : List Nat) 2 = none := by
  have h := claim_C10_throttle ([10, 20, 30] : List Nat) 2 (by decide)
  refine ⟨?_, h.1⟩
  have h2 := (h.2 (by decide)).1
  rw [h2]
  decide
